import Mathlib

/-!
Verification of the entity merge / dedup engine and retrieval support of the
HonorAI repository (`legal_ner.py`, `vector_store.py`), as a shallow embedding
in Lean 4.  Python dicts `{"text","start","end","type"}` become the `Entity`
structure; the stateful loops of `remove_duplicate_entities` become a fold over
an explicit state (the `unique_entities` and `occupied_ranges` lists); external
services (SpaCy, the OpenAI client, the regex engine on the non-literal
patterns, langchain's splitter, faiss) are oracle parameters, while everything
computed by the repository's own code is translated directly.
-/

namespace HonorAI

/-- A candidate entity span, mirroring the Python dicts
`{"text": ..., "start": ..., "end": ..., "type": ...}` built throughout
`legal_ner.py`.  `endPos` embeds the Python key `"end"` (a Lean keyword). -/
structure Entity where
  text : String
  start : Nat
  endPos : Nat
  type : String
deriving Repr, DecidableEq

instance {ε : Type u} {α : Type v} [DecidableEq ε] [DecidableEq α] :
    DecidableEq (Except ε α)
  | .error e, .error f =>
    if h : e = f then .isTrue (by rw [h]) else
      .isFalse (by intro hc; cases hc; exact h rfl)
  | .error _, .ok _ => .isFalse (by intro hc; cases hc)
  | .ok _, .error _ => .isFalse (by intro hc; cases hc)
  | .ok a, .ok b =>
    if h : a = b then .isTrue (by rw [h]) else
      .isFalse (by intro hc; cases hc; exact h rfl)

/-- The `type_priority` dict of `remove_duplicate_entities`
(`legal_ner.py` lines 145-159), read through `.get(entity_type, 0)`:
types absent from the table rank 0. -/
def type_priority (t : String) : Nat :=
  if t = "CASE_CITATION" then 10
  else if t = "STATUTE" then 9
  else if t = "LAW" then 8
  else if t = "LEGAL_TERM" then 7
  else if t = "JUDGE" then 6
  else if t = "COURT" then 5
  else if t = "JURISDICTION" then 4
  else if t = "PARTY" then 3
  else if t = "PERSON" then 2
  else if t = "ORG" then 1
  else if t = "GPE" then 0
  else if t = "DATE" then 0
  else if t = "MONEY" then 0
  else 0

/-- An element of the Python `occupied_ranges` list: the tuple
`(start, end, priority)`. -/
structure Occ where
  start : Nat
  endPos : Nat
  priority : Nat
deriving Repr, DecidableEq

/-- The occupied-range record a candidate contributes:
`(entity["start"], entity["end"], type_priority.get(entity["type"], 0))`. -/
def occOf (x : Entity) : Occ :=
  ⟨x.start, x.endPos, type_priority x.type⟩

/-- The overlap test of `remove_duplicate_entities` line 174:
`not (end <= occ_start or start >= occ_end)`, as a Bool, with `(s, e)` the
candidate's range and `r` the occupied range. -/
def overlapsB (s e : Nat) (r : Occ) : Bool :=
  !(e ≤ r.start || s ≥ r.endPos)

/-- Overlap between two ranges, the relation of the spec:
`NOT (end1 <= start2 OR start1 >= end2)`. -/
def ovOcc (r r' : Occ) : Prop :=
  r'.start < r.endPos ∧ r.start < r'.endPos

instance (r r' : Occ) : Decidable (ovOcc r r') := by
  unfold ovOcc; infer_instance

/-- Overlap between two entities' [start,end) ranges (the spec's relation,
instantiated to entities). -/
def ovEnt (a b : Entity) : Prop :=
  ovOcc (occOf a) (occOf b)

instance (a b : Entity) : Decidable (ovEnt a b) := by
  unfold ovEnt; infer_instance

/-- The sort key comparison of line 142,
`sorted(entities, key=lambda x: (x["start"], -len(x["text"])))`:
lexicographic on `(start, -len(text))`, i.e. start ascending, ties broken by
text length descending.  Python's `sorted` is stable; a stable sort by this
(total, transitive) comparison is `List.insertionSort`. -/
def entKeyLe (a b : Entity) : Prop :=
  a.start < b.start ∨ (a.start = b.start ∧ b.text.length ≤ a.text.length)

instance : DecidableRel entKeyLe := by
  unfold entKeyLe; infer_instance

instance : IsTotal Entity entKeyLe :=
  ⟨by
    intro a b
    unfold entKeyLe
    rcases Nat.lt_trichotomy a.start b.start with h | h | h
    · exact Or.inl (Or.inl h)
    · rcases Nat.le_total b.text.length a.text.length with h' | h'
      · exact Or.inl (Or.inr ⟨h, h'⟩)
      · exact Or.inr (Or.inr ⟨h.symm, h'⟩)
    · exact Or.inr (Or.inl h)⟩

instance : IsTrans Entity entKeyLe :=
  ⟨by
    intro a b c hab hbc
    unfold entKeyLe at *
    rcases hab with h1 | ⟨h1, h1'⟩
    · rcases hbc with h2 | ⟨h2, _⟩
      · exact Or.inl (h1.trans h2)
      · exact Or.inl (h2 ▸ h1)
    · rcases hbc with h2 | ⟨h2, h2'⟩
      · exact Or.inl (h1 ▸ h2)
      · exact Or.inr ⟨h1.trans h2, h2'.trans h1'⟩⟩

/-- `sorted_entities` of line 142: the candidates in processing order. -/
def sorted_entities (entities : List Entity) : List Entity :=
  entities.insertionSort entKeyLe

/-- Index of the first element of `l` satisfying `p` (the Python
`for i, x in enumerate(l): ... break` idiom). -/
def findFirst (p : α → Bool) : List α → Option Nat
  | [] => none
  | x :: xs => if p x then some 0 else (findFirst p xs).map (· + 1)

/-- One iteration of the main loop of `remove_duplicate_entities`
(lines 165-190) on state `(unique_entities, occupied_ranges)`:
scan `occupied_ranges` for the first overlap; on none, append the candidate to
both lists; on an overlap of strictly lower priority, overwrite that occupied
range in place and overwrite the first entity in `unique_entities` whose
start/end equal the replaced range's; otherwise discard the candidate. -/
def dedupStep (unique : List Entity) (occupied : List Occ) (entity : Entity) :
    List Entity × List Occ :=
  let s := entity.start
  let e := entity.endPos
  let p := type_priority entity.type
  match findFirst (overlapsB s e) occupied with
  | none => (unique ++ [entity], occupied ++ [⟨s, e, p⟩])
  | some i =>
    match occupied[i]? with
    | none => (unique, occupied)
    | some r =>
      if r.priority < p then
        let occupied' := occupied.set i ⟨s, e, p⟩
        let unique' :=
          match findFirst
              (fun x => x.start == r.start && x.endPos == r.endPos) unique with
          | some j => unique.set j entity
          | none => unique
        (unique', occupied')
      else (unique, occupied)

/-- `remove_duplicate_entities` (`legal_ner.py` lines 137-192): sort the
candidates by `(start, -len(text))`, then fold the occupancy loop over them
and return the surviving `unique_entities`. -/
def remove_duplicate_entities (entities : List Entity) : List Entity :=
  ((sorted_entities entities).foldl
    (fun st x => dedupStep st.1 st.2 x) ([], [])).1

/-- Modelled from the spec (for comparison with the code's ordering, claim on
the sort step): sort key comparison "by start ascending; break ties by span
length descending", where span length is `end` minus `start`. -/
def specKeyLe (a b : Entity) : Prop :=
  a.start < b.start ∨ (a.start = b.start ∧ b.endPos - b.start ≤ a.endPos - a.start)

instance : DecidableRel specKeyLe := by
  unfold specKeyLe; infer_instance

/-- Modelled from the spec: the candidate ordering the spec describes, a stable
sort by `specKeyLe`. -/
def spec_sorted_entities (entities : List Entity) : List Entity :=
  entities.insertionSort specKeyLe

/-- Pairwise non-overlap of the starts/ends of a list of occupied ranges,
index-based (the target invariant of the dedup engine). -/
def PD (l : List Occ) : Prop :=
  ∀ i j, (hi : i < l.length) → (hj : j < l.length) → i ≠ j →
    ¬ ovOcc l[i] l[j]

/-! ### The LLM extraction path (`legal_ner.py` lines 69-135)

External collaborators (the OpenAI chat call, `json.loads`, SpaCy's tagger and
the regex engine on the non-literal patterns of `legal_patterns`) are passed as
oracle parameters.  `re.finditer(re.escape(entity_text), text)` (line 121) is a
literal substring scan, whose semantics we implement concretely. -/

/-- One item of the `"entities"` array parsed from the model's JSON reply;
`textOpt`/`typeOpt` embed the Python `entity.get("text", "")` and
`entity.get("type", "LEGAL_TERM")` lookups (absent key = `none`). -/
structure RawEnt where
  textOpt : Option String
  typeOpt : Option String
deriving Repr, DecidableEq

/-- One `ent` of the SpaCy document: `ent.text`, `ent.start_char`,
`ent.end_char`, `ent.label_`. -/
structure SpacyEnt where
  text : String
  start_char : Nat
  end_char : Nat
  label : String
deriving Repr, DecidableEq

/-- Python `text[s:e]` on character offsets. -/
def sliceStr (t : String) (s e : Nat) : String :=
  ⟨(t.data.drop s).take (e - s)⟩

/-- Scanner for `re.finditer` with a literal (`re.escape`d) pattern `p`:
left-to-right, non-overlapping matches; after a match the scan resumes at its
end (one further for an empty match, which also occurs at end of text).
`pos` is the absolute offset of `rest`; `skip` counts positions still covered
by the previous match. -/
def scanLit (p : List Char) : List Char → Nat → Nat → List (Nat × Nat)
  | [], pos, skip =>
    if skip = 0 ∧ p = [] then [(pos, pos)] else []
  | c :: rest, pos, skip =>
    if skip ≠ 0 then scanLit p rest (pos + 1) (skip - 1)
    else if p.isPrefixOf (c :: rest) then
      (pos, pos + p.length) :: scanLit p rest (pos + 1) (p.length - 1)
    else
      scanLit p rest (pos + 1) 0

/-- `[(m.start(), m.end()) for m in re.finditer(re.escape(pattern), text)]`. -/
def finditerLiteral (pattern text : String) : List (Nat × Nat) :=
  scanLit pattern.data text.data 0 0

/-- `extract_legal_entities_with_llm` (`legal_ner.py` lines 69-135).
`llmResponse` is the outcome of the `openai.chat.completions.create` call
(`.error` = the call raised; it is *outside* the try block, so the error
propagates).  `parseEntities` models `json.loads(result).get("entities", [])`
(`none` = `json.JSONDecodeError`, caught and turned into `[]`).  For each
parsed entity, one span per occurrence of its text in the full document. -/
def extract_legal_entities_with_llm
    (parseEntities : String → Option (List RawEnt))
    (llmResponse : Except String String)
    (text : String) : Except String (List Entity) :=
  match llmResponse with
  | .error err => .error err
  | .ok result =>
    match parseEntities result with
    | none => .ok []
    | some entities =>
      .ok (entities.flatMap fun ent =>
        let entity_text := ent.textOpt.getD ""
        let entity_type := ent.typeOpt.getD "LEGAL_TERM"
        (finditerLiteral entity_text text).map fun m =>
          { text := entity_text, start := m.1, endPos := m.2,
            type := entity_type })

/-- The SpaCy labels kept by `extract_legal_entities` (line 42). -/
def spacy_labels : List String := ["PERSON", "ORG", "GPE", "DATE", "MONEY"]

/-- The `legal_patterns` dict (lines 26-31), in insertion order; the regex
source strings are only handed to the oracle regex engine.  Literal braces of
the patterns are written with their escapes. -/
def legal_patterns : List (String × String) :=
  [("CASE_CITATION", "([A-Za-z\\s]+\\sv\\.\\s[A-Za-z\\s]+)|(\\d+\\s[A-Za-z\\.]+\\s\\d+)"),
   ("STATUTE", "([A-Za-z\\.]+\\s\u00a7\\s\\d+(?:\\.\\d+)?)"),
   ("MONEY", "\\$\\d+(?:,\\d+)*(?:\\.\\d+)?"),
   ("DATE", "\\d\x7b1,2\x7d/\\d\x7b1,2\x7d/\\d\x7b2,4\x7d|\\d\x7b1,2\x7d-\\d\x7b1,2\x7d-\\d\x7b2,4\x7d|(?:Jan|Feb|Mar|Apr|May|Jun|Jul|Aug|Sep|Oct|Nov|Dec)[a-z]* \\d\x7b1,2\x7d,? \\d\x7b4\x7d")]

/-- `extract_legal_entities` (`legal_ner.py` lines 33-67): SpaCy entities with
the kept labels, then the regex-pattern matches (`match.group()` is the
matched substring of `text`), then the LLM entities; the union deduplicated by
`remove_duplicate_entities`.  `docEnts` are the ents of `nlp(text)` and
`regexFind pat text` the `(start, end)` pairs of `re.finditer(pat, text)`,
both external. -/
def extract_legal_entities
    (docEnts : List SpacyEnt)
    (regexFind : String → String → List (Nat × Nat))
    (parseEntities : String → Option (List RawEnt))
    (llmResponse : Except String String)
    (text : String) : Except String (List Entity) :=
  let entities :=
    (docEnts.filter fun ent => spacy_labels.contains ent.label).map
      (fun ent =>
        { text := ent.text, start := ent.start_char, endPos := ent.end_char,
          type := ent.label : Entity })
    ++ legal_patterns.flatMap fun pat =>
        (regexFind pat.2 text).map fun m =>
          { text := sliceStr text m.1 m.2, start := m.1, endPos := m.2,
            type := pat.1 : Entity }
  match extract_legal_entities_with_llm parseEntities llmResponse text with
  | .error err => .error err
  | .ok openai_entities =>
    .ok (remove_duplicate_entities (entities ++ openai_entities))

/-! ### The vector store (`vector_store.py`)

`RecursiveCharacterTextSplitter.split_text`, the embedding call and the faiss
nearest-neighbour search are external and passed as oracles; the shape logic of
`np.array(chunk_embeddings)` is modelled: a list of `n > 0` rows of width `d`
has shape `(n, d)`, an empty list has 1-dimensional shape `(0,)`, so
`shape[1]` raises `IndexError` exactly when there are no chunks. -/

/-- The shape of `np.array(rows).astype('float32')` for a (rectangular) list
of row vectors. -/
def npShape (rows : List (List Float)) : List Nat :=
  match rows with
  | [] => [0]
  | r :: _ => [rows.length, r.length]

/-- A `faiss.IndexFlatL2` after `index.add`: its dimension and stored
vectors. -/
structure FaissIndexFlatL2 where
  dim : Nat
  vectors : List (List Float)

/-- The dict returned by `create_document_embeddings`. -/
structure DocumentEmbeddings where
  index : FaissIndexFlatL2
  chunks : List String
  embeddings : List (List Float)

/-- `create_document_embeddings` (`vector_store.py` lines 13-47):
split, embed each chunk, take `dimension = embeddings_array.shape[1]` (an
`IndexError` when the shape is 1-dimensional, i.e. no chunks), build the
index. -/
def create_document_embeddings
    (split_text : String → List String)
    (get_embedding : String → List Float)
    (document_text : String) : Except String DocumentEmbeddings :=
  let document_chunks := split_text document_text
  let chunk_embeddings := document_chunks.map get_embedding
  match (npShape chunk_embeddings).get? 1 with
  | none => .error "IndexError: tuple index out of range"
  | some dimension =>
    .ok { index := { dim := dimension, vectors := chunk_embeddings },
          chunks := document_chunks, embeddings := chunk_embeddings }

/-- `perform_document_search` (`vector_store.py` lines 59-86):
embed the query, `k = min(3, len(chunks))`, ask the index for the `k` nearest
chunk ids (`indexSearch`, ranked closest first), look the chunks up, fall back
to a 3000-character prefix of `full_text` when it is truthy and no chunk was
retrieved, else join the retrieved chunks with a blank line. -/
def perform_document_search
    (get_embedding : String → List Float)
    (indexSearch : List Float → Nat → List Nat)
    (query : String)
    (document_embeddings : DocumentEmbeddings)
    (full_text : Option String) : Except String String :=
  let query_embedding := get_embedding query
  let chunks := document_embeddings.chunks
  let k := min 3 chunks.length
  let indices := indexSearch query_embedding k
  match indices.mapM (fun idx => chunks.get? idx) with
  | none => .error "IndexError: list index out of range"
  | some relevant_chunks =>
    if full_text.getD "" ≠ "" ∧ relevant_chunks = [] then
      .ok ((full_text.getD "").take 3000)
    else
      .ok (String.intercalate "\n\n" relevant_chunks)

/-! ### Basic lemmas -/

theorem ovOcc_symm {r r' : Occ} (h : ovOcc r r') : ovOcc r' r :=
  ⟨h.2, h.1⟩

theorem overlapsB_iff {s e : Nat} {r : Occ} :
    overlapsB s e r = true ↔ (r.start < e ∧ s < r.endPos) := by
  simp [overlapsB]

theorem overlapsB_iff_ovOcc {s e p : Nat} {r : Occ} :
    overlapsB s e r = true ↔ ovOcc ⟨s, e, p⟩ r := by
  rw [overlapsB_iff]; exact Iff.rfl

theorem findFirst_none {p : α → Bool} {l : List α} (h : findFirst p l = none) :
    ∀ x ∈ l, p x = false := by
  induction l with
  | nil => intro x hx; cases hx
  | cons a l ih =>
    rw [findFirst] at h
    by_cases hpa : p a = true
    · simp [hpa] at h
    · intro x hx
      rcases List.mem_cons.mp hx with rfl | hx
      · exact Bool.eq_false_iff.mpr hpa
      · have hl : findFirst p l = none := by
          rcases hfl : findFirst p l with _ | i
          · rfl
          · simp [hpa, hfl] at h
        exact ih hl x hx

theorem findFirst_none_of {p : α → Bool} :
    ∀ {l : List α}, (∀ x ∈ l, p x = false) → findFirst p l = none := by
  intro l h
  induction l with
  | nil => rfl
  | cons a l ih =>
    rw [findFirst, if_neg (by simp [h a (List.mem_cons_self a l)]),
      ih fun x hx => h x (List.mem_cons_of_mem a hx)]
    rfl

theorem findFirst_bound {p : α → Bool} :
    ∀ {l : List α} {i : Nat}, findFirst p l = some i → i < l.length := by
  intro l
  induction l with
  | nil => intro i h; cases h
  | cons a l ih =>
    intro i h
    rw [findFirst] at h
    simp only [List.length_cons]
    by_cases hpa : p a = true
    · simp [hpa] at h
      omega
    · simp [hpa] at h
      rcases h with ⟨j, hj, rfl⟩
      have := ih hj
      omega

theorem findFirst_prop {p : α → Bool} :
    ∀ {l : List α} {i : Nat} (h : findFirst p l = some i)
      (hi : i < l.length), p (l.get ⟨i, hi⟩) = true := by
  intro l
  induction l with
  | nil => intro i h; cases h
  | cons a l ih =>
    intro i h hi
    rw [findFirst] at h
    by_cases hpa : p a = true
    · simp [hpa] at h
      subst h; exact hpa
    · simp [hpa] at h
      rcases h with ⟨j, hj, rfl⟩
      exact ih hj (by simpa using hi)

theorem findFirst_min {p : α → Bool} :
    ∀ {l : List α} {i : Nat} (h : findFirst p l = some i)
      (j : Nat) (hj : j < l.length), j < i → p (l.get ⟨j, hj⟩) = false := by
  intro l
  induction l with
  | nil => intro i h; cases h
  | cons a l ih =>
    intro i h j hj hji
    rw [findFirst] at h
    by_cases hpa : p a = true
    · simp [hpa] at h; omega
    · simp [hpa] at h
      rcases h with ⟨i', hi', rfl⟩
      match j with
      | 0 => exact Bool.eq_false_iff.mpr hpa
      | j + 1 => exact ih hi' j (by simpa using hj) (by omega)

theorem findFirst_some_of {p : α → Bool} :
    ∀ {l : List α} {i : Nat} (hi : i < l.length),
      p (l.get ⟨i, hi⟩) = true →
      (∀ j (hj : j < l.length), j < i → p (l.get ⟨j, hj⟩) = false) →
      findFirst p l = some i := by
  intro l
  induction l with
  | nil => intro i hi; cases hi
  | cons a l ih =>
    intro i hi hp hmin
    match i with
    | 0 =>
      have hp' : p a = true := hp
      rw [findFirst, if_pos hp']
    | i + 1 =>
      have hpa : p a = false := hmin 0 (by simp) (by omega)
      rw [findFirst, if_neg (by simp [hpa]),
        ih (by simpa using hi) hp
          (fun j hj hji => hmin (j + 1) (by simpa using hj) (by omega))]
      rfl

/-! ### The occupancy-loop invariant -/

theorem occOf_start (x : Entity) : (occOf x).start = x.start := rfl

theorem occOf_endPos (x : Entity) : (occOf x).endPos = x.endPos := rfl

theorem PD_snoc {l : List Occ} {q : Occ} (hPD : PD l)
    (hq : ∀ r ∈ l, ¬ ovOcc q r) : PD (l ++ [q]) := by
  intro i j hi hj hij
  have hi0 : i < l.length + 1 := by simpa using hi
  have hj0 : j < l.length + 1 := by simpa using hj
  by_cases hi' : i < l.length
  · by_cases hj' : j < l.length
    · rw [List.getElem_append_left hi', List.getElem_append_left hj']
      exact hPD i j hi' hj' hij
    · have hj'' : j = l.length := by omega
      rw [List.getElem_append_left hi', List.getElem_concat_length l q j hj'']
      intro hov
      exact hq _ (List.getElem_mem hi') (ovOcc_symm hov)
  · have hi'' : i = l.length := by omega
    have hj' : j < l.length := by omega
    rw [List.getElem_append_left hj', List.getElem_concat_length l q i hi'']
    exact hq _ (List.getElem_mem hj')

/-- Processing one candidate from state `(unique, unique.map occOf)` keeps the
two lists aligned, keeps the occupied ranges pairwise non-overlapping, keeps
every accepted start at most the candidate's start, and changes `unique` in
one of three recorded ways. -/
theorem dedupStep_spec (unique : List Entity) (x : Entity)
    (hb : ∀ u ∈ unique, u.start ≤ x.start)
    (hPD : PD (unique.map occOf)) :
    ∃ u' : List Entity,
      dedupStep unique (unique.map occOf) x = (u', u'.map occOf) ∧
      PD (u'.map occOf) ∧
      (∀ u ∈ u', u.start ≤ x.start) ∧
      (u' = unique ∨ u' = unique ++ [x] ∨
        ∃ i, ∃ hi : i < unique.length,
          u' = unique.set i x ∧ ovEnt x unique[i]) := by
  cases hf : findFirst (overlapsB x.start x.endPos) (unique.map occOf) with
  | none =>
    refine ⟨unique ++ [x], ?_, ?_, ?_, Or.inr (Or.inl rfl)⟩
    · simp [dedupStep, hf, occOf]
    · simp only [List.map_append, List.map_cons, List.map_nil]
      refine PD_snoc hPD ?_
      intro r hr
      have hfr := findFirst_none hf r hr
      intro hov
      rcases hov with ⟨hA, hB⟩
      simp only [occOf_start, occOf_endPos] at hA hB
      rw [Bool.eq_false_iff] at hfr
      exact hfr (overlapsB_iff.mpr ⟨hA, hB⟩)
    · intro u hu
      rcases List.mem_append.mp hu with h | h
      · exact hb u h
      · simp at h; subst h; exact le_refl _
  | some i =>
    have hilen : i < (unique.map occOf).length := findFirst_bound hf
    have hiu : i < unique.length := by simpa using hilen
    have hgeti : (unique.map occOf).get ⟨i, hilen⟩ = occOf unique[i] := by
      simp
    have hget? : (unique.map occOf)[i]? = some (occOf unique[i]) := by
      rw [List.getElem?_eq_getElem hilen]
      simp
    have hovi : overlapsB x.start x.endPos (occOf unique[i]) = true := by
      have := findFirst_prop hf hilen
      rwa [hgeti] at this
    have hovi' : ovEnt x unique[i] :=
      (overlapsB_iff_ovOcc (p := type_priority x.type)).mp hovi
    by_cases hpri : (occOf unique[i]).priority < type_priority x.type
    · -- replacement: the first matching entity slot is `i` itself
      have hfind2 : findFirst
          (fun y => y.start == (occOf unique[i]).start &&
            y.endPos == (occOf unique[i]).endPos) unique = some i := by
        apply findFirst_some_of hiu
        · simp [occOf]
        · intro j hj hji
          by_contra hcon
          simp only [Bool.not_eq_false, Bool.and_eq_true, beq_iff_eq] at hcon
          have hjlen : j < (unique.map occOf).length := by simpa using hj
          have := findFirst_min hf j hjlen hji
          rw [List.get_eq_getElem] at this
          simp only [List.getElem_map] at this
          rw [List.get_eq_getElem] at hcon
          have hovj : overlapsB x.start x.endPos (occOf unique[j]) = true := by
            rw [overlapsB_iff] at hovi ⊢
            simpa [occOf, hcon.1, hcon.2] using hovi
          rw [hovj] at this
          cases this
      -- the key fact: the candidate overlaps no occupied range other than slot i
      have hother : ∀ k, (hk : k < unique.length) → k ≠ i →
          ¬ ovOcc (occOf x) (occOf unique[k]) := by
        intro k hk hki hov
        have h1 : unique[k].start ≤ x.start := hb _ (List.getElem_mem hk)
        have h2 : unique[i].start ≤ x.start := hb _ (List.getElem_mem hiu)
        have hPDik := hPD i k (by simpa using hiu) (by simpa using hk)
          (fun h => hki h.symm)
        simp only [List.getElem_map] at hPDik
        simp only [ovEnt, ovOcc, occOf_start, occOf_endPos] at hovi' hov hPDik
        omega
      refine ⟨unique.set i x, ?_, ?_, ?_,
        Or.inr (Or.inr ⟨i, hiu, rfl, hovi'⟩)⟩
      · simp only [dedupStep, hf, hget?, if_pos hpri, hfind2, List.map_set]
        rfl
      · intro a b ha hb' hab
        have ha' : a < unique.length := by simpa using ha
        have hb'' : b < unique.length := by simpa using hb'
        simp only [List.map_set, List.getElem_set]
        by_cases hai : i = a
        · subst hai
          rw [if_pos rfl, if_neg hab]
          simp only [List.getElem_map]
          exact hother b hb'' (fun h => hab h.symm)
        · rw [if_neg hai]
          by_cases hbi : i = b
          · subst hbi
            rw [if_pos rfl]
            simp only [List.getElem_map]
            intro hov
            exact hother a ha' (fun h => hai h.symm) (ovOcc_symm hov)
          · rw [if_neg hbi]
            simp only [List.getElem_map]
            have := hPD a b (by simpa using ha') (by simpa using hb'') hab
            simpa using this
      · intro u hu
        rcases List.mem_or_eq_of_mem_set hu with h | h
        · exact hb u h
        · subst h; exact le_refl _
    · refine ⟨unique, ?_, hPD, hb, Or.inl rfl⟩
      simp only [dedupStep, hf, hget?, if_neg hpri]

theorem entKeyLe_start {a b : Entity} (h : entKeyLe a b) : a.start ≤ b.start := by
  rcases h with h | ⟨h, _⟩
  · omega
  · omega

theorem sorted_entities_pairwise_le (l : List Entity) :
    (sorted_entities l).Pairwise fun a b => a.start ≤ b.start :=
  (List.sorted_insertionSort entKeyLe l).imp entKeyLe_start

theorem sorted_entities_perm (l : List Entity) :
    List.Perm (sorted_entities l) l :=
  List.perm_insertionSort entKeyLe l

theorem ovEnt_symm {a b : Entity} (h : ovEnt a b) : ovEnt b a :=
  ovOcc_symm h

theorem PD_nil : PD [] := by
  intro i j hi
  simp at hi

/-- The fold of the occupancy loop, from any aligned state whose occupied
ranges all start at or before every remaining (sorted) candidate: alignment
and pairwise non-overlap are invariants. -/
theorem foldl_dedup_spec :
    ∀ (rest unique : List Entity),
      rest.Pairwise (fun a b => a.start ≤ b.start) →
      (∀ u ∈ unique, ∀ c ∈ rest, u.start ≤ c.start) →
      PD (unique.map occOf) →
      ∃ u' : List Entity,
        rest.foldl (fun st x => dedupStep st.1 st.2 x) (unique, unique.map occOf)
          = (u', u'.map occOf) ∧ PD (u'.map occOf) := by
  intro rest
  induction rest with
  | nil => intro unique _ _ hPD; exact ⟨unique, rfl, hPD⟩
  | cons x rest ih =>
    intro unique hsort hbound hPD
    have hbx : ∀ u ∈ unique, u.start ≤ x.start := fun u hu =>
      hbound u hu x (List.mem_cons_self x rest)
    obtain ⟨u1, heq, hPD1, hble, _⟩ := dedupStep_spec unique x hbx hPD
    rw [List.foldl_cons]
    dsimp only
    rw [heq]
    have hx : ∀ b ∈ rest, x.start ≤ b.start := (List.pairwise_cons.mp hsort).1
    exact ih u1 (List.pairwise_cons.mp hsort).2
      (fun u hu c hc => le_trans (hble u hu) (hx c hc)) hPD1

/-- `remove_duplicate_entities` returns a pairwise non-overlapping list. -/
theorem resolve_pairwise (l : List Entity) :
    (remove_duplicate_entities l).Pairwise fun a b => ¬ ovEnt a b := by
  obtain ⟨u', heq, hPD⟩ := foldl_dedup_spec (sorted_entities l) []
    (sorted_entities_pairwise_le l) (by intro u hu; cases hu) PD_nil
  unfold remove_duplicate_entities
  rw [show (([], []) : List Entity × List Occ)
      = (([], List.map occOf []) : List Entity × List Occ) from rfl, heq]
  rw [List.pairwise_iff_getElem]
  intro i j hi hj hij
  have := hPD i j (by simpa using hi) (by simpa using hj) (by omega)
  simpa [ovEnt] using this

/-- Each surviving entity is one of the candidates. -/
theorem dedupStep_mem {unique : List Entity} {occ : List Occ} {x : Entity} :
    ∀ y ∈ (dedupStep unique occ x).1, y ∈ unique ∨ y = x := by
  intro y hy
  cases hf : findFirst (overlapsB x.start x.endPos) occ with
  | none =>
    simp only [dedupStep, hf] at hy
    rcases List.mem_append.mp hy with h | h
    · exact Or.inl h
    · simp at h; exact Or.inr h
  | some i =>
    cases hg : occ[i]? with
    | none => simp only [dedupStep, hf, hg] at hy; exact Or.inl hy
    | some r =>
      simp only [dedupStep, hf, hg] at hy
      by_cases hpri : r.priority < type_priority x.type
      · rw [if_pos hpri] at hy
        cases hf2 : findFirst
            (fun y => y.start == r.start && y.endPos == r.endPos) unique with
        | none => simp only [hf2] at hy; exact Or.inl hy
        | some j =>
          simp only [hf2] at hy
          rcases List.mem_or_eq_of_mem_set hy with h | h
          · exact Or.inl h
          · exact Or.inr h
      · rw [if_neg hpri] at hy; exact Or.inl hy

theorem dedupStep_len {unique : List Entity} {occ : List Occ} {x : Entity} :
    (dedupStep unique occ x).1.length ≤ unique.length + 1 := by
  cases hf : findFirst (overlapsB x.start x.endPos) occ with
  | none => simp [dedupStep, hf]
  | some i =>
    cases hg : occ[i]? with
    | none => simp [dedupStep, hf, hg]
    | some r =>
      simp only [dedupStep, hf, hg]
      by_cases hpri : r.priority < type_priority x.type
      · rw [if_pos hpri]
        cases hf2 : findFirst
            (fun y => y.start == r.start && y.endPos == r.endPos) unique with
        | none => simp [hf2]
        | some j => simp [hf2]
      · rw [if_neg hpri]; simp

theorem foldl_dedup_mem :
    ∀ (rest : List Entity) (unique : List Entity) (occ : List Occ),
      ∀ y ∈ (rest.foldl (fun st x => dedupStep st.1 st.2 x) (unique, occ)).1,
        y ∈ unique ∨ y ∈ rest := by
  intro rest
  induction rest with
  | nil => intro unique occ y hy; exact Or.inl hy
  | cons x rest ih =>
    intro unique occ y hy
    rw [List.foldl_cons] at hy
    have h := ih (dedupStep unique occ x).1 (dedupStep unique occ x).2 y
      (by simpa using hy)
    rcases h with h | h
    · rcases dedupStep_mem _ h with h' | h'
      · exact Or.inl h'
      · exact Or.inr (by simp [h'])
    · exact Or.inr (List.mem_cons_of_mem _ h)

theorem foldl_dedup_len :
    ∀ (rest : List Entity) (unique : List Entity) (occ : List Occ),
      (rest.foldl (fun st x => dedupStep st.1 st.2 x) (unique, occ)).1.length
        ≤ unique.length + rest.length := by
  intro rest
  induction rest with
  | nil => intro unique occ; simp
  | cons x rest ih =>
    intro unique occ
    rw [List.foldl_cons]
    have h := ih (dedupStep unique occ x).1 (dedupStep unique occ x).2
    have h2 : (dedupStep unique occ x).1.length ≤ unique.length + 1 :=
      dedupStep_len
    simp only [List.length_cons]
    calc (List.foldl (fun st x => dedupStep st.1 st.2 x)
            ((fun (st : List Entity × List Occ) y => dedupStep st.1 st.2 y)
              (unique, occ) x) rest).1.length
        = (List.foldl (fun st x => dedupStep st.1 st.2 x)
            (dedupStep unique occ x) rest).1.length := by rfl
      _ ≤ (dedupStep unique occ x).1.length + rest.length := by
          simpa using h
      _ ≤ unique.length + 1 + rest.length := by omega
      _ = unique.length + (rest.length + 1) := by omega

/-- Every output entity comes from the input, and the output is no longer
than the input. -/
theorem resolve_mem {l : List Entity} :
    ∀ y ∈ remove_duplicate_entities l, y ∈ l := by
  intro y hy
  unfold remove_duplicate_entities at hy
  rcases foldl_dedup_mem (sorted_entities l) [] [] y hy with h | h
  · cases h
  · exact (sorted_entities_perm l).mem_iff.mp h

theorem resolve_len (l : List Entity) :
    (remove_duplicate_entities l).length ≤ l.length := by
  unfold remove_duplicate_entities
  have := foldl_dedup_len (sorted_entities l) [] []
  simpa [(sorted_entities_perm l).length_eq] using this

/-- When no candidate overlaps any other (and none overlaps the prefix),
every candidate is accepted, in order. -/
theorem foldl_accept_all :
    ∀ (rest unique : List Entity),
      rest.Pairwise (fun a b => ¬ ovEnt a b) →
      (∀ u ∈ unique, ∀ c ∈ rest, ¬ ovEnt u c) →
      rest.foldl (fun st x => dedupStep st.1 st.2 x)
          (unique, unique.map occOf)
        = (unique ++ rest, (unique ++ rest).map occOf) := by
  intro rest
  induction rest with
  | nil => intro unique _ _; simp
  | cons x rest ih =>
    intro unique hpw hcross
    have hnone : findFirst (overlapsB x.start x.endPos) (unique.map occOf)
        = none := by
      apply findFirst_none_of
      intro r hr
      rcases List.mem_map.mp hr with ⟨u, hu, rfl⟩
      have hno : ¬ ovEnt u x := hcross u hu x (List.mem_cons_self x rest)
      rw [Bool.eq_false_iff]
      intro hov
      rw [overlapsB_iff] at hov
      exact hno (ovEnt_symm (by
        simpa [ovEnt, ovOcc, occOf_start, occOf_endPos] using hov))
    rw [List.foldl_cons]
    have hstep : dedupStep unique (unique.map occOf) x
        = (unique ++ [x], (unique ++ [x]).map occOf) := by
      simp [dedupStep, hnone, occOf]
    dsimp only
    rw [hstep, ih (unique ++ [x]) (List.pairwise_cons.mp hpw).2 ?_]
    · simp
    · intro u hu c hc
      rcases List.mem_append.mp hu with h | h
      · exact hcross u h c (List.mem_cons_of_mem x hc)
      · simp at h; subst h
        exact fun hov => (List.pairwise_cons.mp hpw).1 c hc hov

/-- On a pairwise non-overlapping input, `remove_duplicate_entities` only
sorts: it returns the sorted input itself. -/
theorem resolve_eq_sorted_of_pairwise {l : List Entity}
    (h : l.Pairwise fun a b => ¬ ovEnt a b) :
    remove_duplicate_entities l = sorted_entities l := by
  have hsorted_pw : (sorted_entities l).Pairwise fun a b => ¬ ovEnt a b :=
    ((sorted_entities_perm l).pairwise_iff
      (by intro a b hab hov; exact hab (ovEnt_symm hov))).mpr h
  unfold remove_duplicate_entities
  rw [show (([], []) : List Entity × List Occ)
      = (([], List.map occOf []) : List Entity × List Occ) from rfl]
  rw [foldl_accept_all (sorted_entities l) [] hsorted_pw
    (by intro u hu; cases hu)]
  simp

/-! ### The proper-span case: the output is sorted, hence a fixed point -/

theorem pairwise_not_ovEnt_of_PD {u : List Entity}
    (hPD : PD (u.map occOf)) : u.Pairwise fun a b => ¬ ovEnt a b := by
  rw [List.pairwise_iff_getElem]
  intro i j hi hj hij
  have := hPD i j (by simpa using hi) (by simpa using hj) (by omega)
  simpa [ovEnt] using this

theorem pairwise_lt_of_PD_proper {u : List Entity}
    (hPD : PD (u.map occOf)) (hprop : ∀ e ∈ u, e.start < e.endPos)
    (hle : u.Pairwise fun a b => a.start ≤ b.start) :
    u.Pairwise fun a b => a.start < b.start := by
  rw [List.pairwise_iff_getElem] at hle ⊢
  intro i j hi hj hij
  have hnd := hPD i j (by simpa using hi) (by simpa using hj) (by omega)
  simp only [List.getElem_map] at hnd
  have h1 := hprop _ (List.getElem_mem hi)
  have h2 := hprop _ (List.getElem_mem hj)
  have h3 := hle i j hi hj hij
  simp only [ovOcc, occOf_start, occOf_endPos] at hnd
  omega

/-- For inputs of proper spans (`start < end`) the fold additionally keeps the
accepted entities proper and ordered by start. -/
theorem foldl_dedup_proper :
    ∀ (rest unique : List Entity),
      rest.Pairwise (fun a b => a.start ≤ b.start) →
      (∀ u ∈ unique, ∀ c ∈ rest, u.start ≤ c.start) →
      PD (unique.map occOf) →
      (∀ u ∈ unique, u.start < u.endPos) →
      (∀ c ∈ rest, c.start < c.endPos) →
      unique.Pairwise (fun a b => a.start ≤ b.start) →
      ∃ u' : List Entity,
        rest.foldl (fun st x => dedupStep st.1 st.2 x)
            (unique, unique.map occOf)
          = (u', u'.map occOf) ∧ PD (u'.map occOf) ∧
          (∀ u ∈ u', u.start < u.endPos) ∧
          u'.Pairwise (fun a b => a.start ≤ b.start) := by
  intro rest
  induction rest with
  | nil => intro unique _ _ hPD hprop _ hW; exact ⟨unique, rfl, hPD, hprop, hW⟩
  | cons x rest ih =>
    intro unique hsort hbound hPD hprop hrestp hW
    have hbx : ∀ u ∈ unique, u.start ≤ x.start := fun u hu =>
      hbound u hu x (List.mem_cons_self x rest)
    have hxp : x.start < x.endPos := hrestp x (List.mem_cons_self x rest)
    obtain ⟨u1, heq, hPD1, hble, hshape⟩ := dedupStep_spec unique x hbx hPD
    have hprop1 : ∀ u ∈ u1, u.start < u.endPos := by
      intro u hu
      rcases hshape with rfl | rfl | ⟨i, hi, rfl, _⟩
      · exact hprop u hu
      · rcases List.mem_append.mp hu with h | h
        · exact hprop u h
        · simp at h; subst h; exact hxp
      · rcases List.mem_or_eq_of_mem_set hu with h | h
        · exact hprop u h
        · subst h; exact hxp
    have hW1 : u1.Pairwise fun a b => a.start ≤ b.start := by
      rcases hshape with rfl | rfl | ⟨i, hi, rfl, hovi⟩
      · exact hW
      · rw [List.pairwise_append]
        refine ⟨hW, List.pairwise_singleton _ _, ?_⟩
        intro a ha b hb
        simp at hb; subst hb
        exact hbx a ha
      · rw [List.pairwise_iff_getElem] at hW ⊢
        intro a b ha hb hab
        have ha' : a < unique.length := by simpa using ha
        have hb' : b < unique.length := by simpa using hb
        simp only [List.getElem_set]
        by_cases hia : i = a
        · subst hia
          rw [if_pos rfl, if_neg (by omega)]
          -- the candidate starts no later than any entity after slot i
          have hPDib := hPD i b (by simpa using ha') (by simpa using hb')
            (by omega)
          simp only [List.getElem_map, ovOcc, occOf_start, occOf_endPos]
            at hPDib
          have h1 : unique[i].start ≤ unique[b].start := hW i b ha' hb' hab
          have h2 : unique[b].start < unique[b].endPos :=
            hprop _ (List.getElem_mem hb')
          have h3 : x.start < unique[i].endPos := hovi.2
          omega
        · rw [if_neg hia]
          by_cases hib : i = b
          · subst hib
            rw [if_pos rfl]
            exact hbx _ (List.getElem_mem ha')
          · rw [if_neg hib]
            exact hW a b ha' hb' hab
    rw [List.foldl_cons]
    dsimp only
    rw [heq]
    have hx : ∀ b ∈ rest, x.start ≤ b.start := (List.pairwise_cons.mp hsort).1
    exact ih u1 (List.pairwise_cons.mp hsort).2
      (fun u hu c hc => le_trans (hble u hu) (hx c hc)) hPD1 hprop1
      (fun c hc => hrestp c (List.mem_cons_of_mem x hc)) hW1

/-- For an input all of whose spans are proper, the resolved output is a fixed
point of `remove_duplicate_entities`. -/
theorem resolve_idem_of_proper {l : List Entity}
    (hprop : ∀ e ∈ l, e.start < e.endPos) :
    remove_duplicate_entities (remove_duplicate_entities l)
      = remove_duplicate_entities l := by
  obtain ⟨out, heq, hPD, hprop', hW⟩ := foldl_dedup_proper (sorted_entities l)
    [] (sorted_entities_pairwise_le l) (by intro u hu; cases hu) PD_nil
    (by intro u hu; cases hu)
    (fun c hc => hprop c ((sorted_entities_perm l).mem_iff.mp hc))
    List.Pairwise.nil
  have hout : remove_duplicate_entities l = out := by
    unfold remove_duplicate_entities
    rw [show (([], []) : List Entity × List Occ)
        = (([], List.map occOf []) : List Entity × List Occ) from rfl, heq]
  have hstrict := pairwise_lt_of_PD_proper hPD hprop' hW
  have hsorted_out : sorted_entities out = out :=
    List.Sorted.insertionSort_eq (hstrict.imp fun h => Or.inl h)
  rw [hout, resolve_eq_sorted_of_pairwise (pairwise_not_ovEnt_of_PD hPD),
    hsorted_out]

/-! ### Support lemmas for the extraction and retrieval models -/

theorem occOf_priority (x : Entity) :
    (occOf x).priority = type_priority x.type := rfl

theorem not_ovEnt_iff {a b : Entity} :
    ¬ ovEnt a b ↔ (a.endPos ≤ b.start ∨ a.start ≥ b.endPos) := by
  simp [ovEnt, ovOcc, occOf_start, occOf_endPos]
  omega

/-- Every match reported by the literal scanner starts at or after the scan
position, has width exactly the pattern length, ends within the text, and the
text at the match equals the pattern. -/
theorem scanLit_spec (p : List Char) :
    ∀ (rest : List Char) (pos skip : Nat), ∀ m ∈ scanLit p rest pos skip,
      pos ≤ m.1 ∧ m.2 = m.1 + p.length ∧ m.2 ≤ pos + rest.length ∧
      (rest.drop (m.1 - pos)).take p.length = p := by
  intro rest
  induction rest with
  | nil =>
    intro pos skip m hm
    rw [scanLit] at hm
    by_cases h : skip = 0 ∧ p = []
    · rw [if_pos h] at hm
      rcases List.mem_singleton.mp hm with rfl
      obtain ⟨-, rfl⟩ := h
      exact ⟨le_refl _, by simp, by simp, by simp⟩
    · rw [if_neg h] at hm
      cases hm
  | cons c rest ih =>
    intro pos skip m hm
    rw [scanLit] at hm
    by_cases hskip : skip ≠ 0
    · rw [if_pos hskip] at hm
      obtain ⟨h1, h2, h3, h4⟩ := ih (pos + 1) (skip - 1) m hm
      refine ⟨by omega, h2, by simp only [List.length_cons]; omega, ?_⟩
      rw [show m.1 - pos = (m.1 - (pos + 1)) + 1 by omega,
        List.drop_succ_cons]
      exact h4
    · rw [if_neg hskip] at hm
      by_cases hpre : p.isPrefixOf (c :: rest) = true
      · rw [if_pos hpre] at hm
        rcases List.mem_cons.mp hm with rfl | hm'
        · obtain ⟨t, ht⟩ := List.isPrefixOf_iff_prefix.mp hpre
          have hlen : p.length ≤ rest.length + 1 := by
            have := (List.isPrefixOf_iff_prefix.mp hpre).length_le
            simpa using this
          refine ⟨le_refl _, rfl, by simp only [List.length_cons]; omega, ?_⟩
          simp only [Nat.sub_self, List.drop_zero]
          rw [← ht]
          exact List.take_left p t
        · obtain ⟨h1, h2, h3, h4⟩ := ih (pos + 1) (p.length - 1) m hm'
          refine ⟨by omega, h2, by simp only [List.length_cons]; omega, ?_⟩
          rw [show m.1 - pos = (m.1 - (pos + 1)) + 1 by omega,
            List.drop_succ_cons]
          exact h4
      · rw [if_neg hpre] at hm
        obtain ⟨h1, h2, h3, h4⟩ := ih (pos + 1) 0 m hm
        refine ⟨by omega, h2, by simp only [List.length_cons]; omega, ?_⟩
        rw [show m.1 - pos = (m.1 - (pos + 1)) + 1 by omega,
          List.drop_succ_cons]
        exact h4

/-- Bounds and content of the matches of `finditerLiteral`. -/
theorem finditerLiteral_spec (pattern text : String) :
    ∀ m ∈ finditerLiteral pattern text,
      m.1 ≤ m.2 ∧ m.2 ≤ text.length ∧
      sliceStr text m.1 m.2 = pattern := by
  intro m hm
  obtain ⟨h1, h2, h3, h4⟩ := scanLit_spec pattern.data text.data 0 0 m hm
  refine ⟨by omega, by simpa using h3, ?_⟩
  unfold sliceStr
  rw [show m.1 - 0 = m.1 from rfl] at h4
  rw [show m.2 - m.1 = pattern.data.length by omega, h4]

/-- Looking every valid index up in a chunk list succeeds and yields the
corresponding chunks. -/
theorem mapM_get?_of_valid {chunks : List String} :
    ∀ {indices : List Nat}, (∀ i ∈ indices, i < chunks.length) →
      indices.mapM (fun idx => chunks.get? idx)
        = some (indices.map fun idx => chunks.getD idx "") := by
  intro indices
  induction indices with
  | nil => intro _; rfl
  | cons i is ih =>
    intro h
    have hi : i < chunks.length := h i (List.mem_cons_self i is)
    have hd : chunks.get? i = some chunks[i] := by
      rw [List.get?_eq_getElem?, List.getElem?_eq_getElem hi]
    have hgd : chunks.getD i "" = chunks[i] := by
      rw [List.getD_eq_getElem?_getD, List.getElem?_eq_getElem hi]
      rfl
    rw [List.mapM_cons, hd, ih fun j hj => h j (List.mem_cons_of_mem i hj)]
    simp [hgd, List.getElem?_eq_getElem hi]

/-- Folding the occupancy loop over two overlapping candidates keeps the
second exactly when it strictly out-prioritises the first. -/
theorem fold_pair (a b : Entity) (hov : ovEnt b a) :
    ([a, b].foldl (fun st x => dedupStep st.1 st.2 x) ([], [])).1
      = if type_priority a.type < type_priority b.type then [b] else [a] := by
  have h1 : dedupStep [] [] a = ([a], [occOf a]) := rfl
  have hovB : overlapsB b.start b.endPos (occOf a) = true := by
    rw [overlapsB_iff]
    exact ⟨by simpa [occOf_start] using hov.1, by simpa [occOf_endPos] using hov.2⟩
  have hff : findFirst (overlapsB b.start b.endPos) [occOf a] = some 0 := by
    rw [findFirst, if_pos hovB]
  calc ([a, b].foldl (fun st x => dedupStep st.1 st.2 x) ([], [])).1
      = (dedupStep (dedupStep [] [] a).1 (dedupStep [] [] a).2 b).1 := rfl
    _ = (dedupStep [a] [occOf a] b).1 := by rw [h1]
    _ = if type_priority a.type < type_priority b.type then [b] else [a] := by
        simp only [dedupStep, hff, List.getElem?_cons_zero, occOf_priority]
        by_cases hpri : type_priority a.type < type_priority b.type
        · rw [if_pos hpri, if_pos hpri]
          simp [findFirst, occOf_start, occOf_endPos]
        · rw [if_neg hpri, if_neg hpri]

/-! ### The claims -/

/-- C1: for every input list of spans, the output of
`remove_duplicate_entities` satisfies the no-overlap invariant: for every pair
of distinct entities in the returned list, the half-open ranges do not
overlap, overlap of `(s1,e1)` and `(s2,e2)` meaning
`NOT (e1 <= s2 OR s1 >= e2)`. -/
theorem claim_C1_no_overlap_invariant (l : List Entity) :
    ∀ i j, (hi : i < (remove_duplicate_entities l).length) →
      (hj : j < (remove_duplicate_entities l).length) → i ≠ j →
      ((remove_duplicate_entities l)[i].endPos
          ≤ (remove_duplicate_entities l)[j].start ∨
        (remove_duplicate_entities l)[i].start
          ≥ (remove_duplicate_entities l)[j].endPos) := by
  intro i j hi hj hij
  have hpw := resolve_pairwise l
  rw [List.pairwise_iff_getElem] at hpw
  rcases Nat.lt_or_ge i j with h | h
  · exact not_ovEnt_iff.mp (hpw i j hi hj h)
  · have hji : j < i := by omega
    have := hpw j i hj hi hji
    have hno : ¬ ovEnt (remove_duplicate_entities l)[i]
        (remove_duplicate_entities l)[j] := fun hov => this (ovEnt_symm hov)
    exact not_ovEnt_iff.mp hno

/-- C1 witness: on the three non-overlapping example spans, the resolved
pair at positions 0 and 1 is non-overlapping. -/
theorem claim_C1_witness :
    (remove_duplicate_entities
        [⟨"Jan 1", 0, 4, "DATE"⟩, ⟨"$100", 10, 14, "MONEY"⟩])[0].endPos
      ≤ (remove_duplicate_entities
        [⟨"Jan 1", 0, 4, "DATE"⟩, ⟨"$100", 10, 14, "MONEY"⟩])[1].start ∨
    (remove_duplicate_entities
        [⟨"Jan 1", 0, 4, "DATE"⟩, ⟨"$100", 10, 14, "MONEY"⟩])[0].start
      ≥ (remove_duplicate_entities
        [⟨"Jan 1", 0, 4, "DATE"⟩, ⟨"$100", 10, 14, "MONEY"⟩])[1].endPos :=
  claim_C1_no_overlap_invariant
    [⟨"Jan 1", 0, 4, "DATE"⟩, ⟨"$100", 10, 14, "MONEY"⟩]
    0 1 (by decide) (by decide) (by decide)

/-- C2: for two overlapping candidates `X` and `Y` with the type of `X`
strictly out-prioritising the type of `Y` (priorities per the fixed table,
absent types ranking 0), `remove_duplicate_entities` on the two-element input
returns exactly `X`'s span, for both input orders. -/
theorem claim_C2_priority_correctness (X Y : Entity)
    (hp : type_priority Y.type < type_priority X.type)
    (hov : ¬ (X.endPos ≤ Y.start ∨ X.start ≥ Y.endPos)) :
    remove_duplicate_entities [X, Y] = [X] ∧
    remove_duplicate_entities [Y, X] = [X] := by
  have hovXY : ovEnt X Y := by
    by_contra h
    exact hov (not_ovEnt_iff.mp h)
  have hovYX := ovEnt_symm hovXY
  have hsort : ∀ c d : Entity, List.insertionSort entKeyLe [c, d] = [c, d] ∨
      List.insertionSort entKeyLe [c, d] = [d, c] := by
    intro c d
    simp only [List.insertionSort, List.orderedInsert]
    by_cases h : entKeyLe c d
    · rw [if_pos h]; exact Or.inl rfl
    · rw [if_neg h]; exact Or.inr rfl
  constructor
  · unfold remove_duplicate_entities sorted_entities
    rcases hsort X Y with h | h
    · rw [h, fold_pair X Y hovYX, if_neg (by omega)]
    · rw [h, fold_pair Y X hovXY, if_pos hp]
  · unfold remove_duplicate_entities sorted_entities
    rcases hsort Y X with h | h
    · rw [h, fold_pair Y X hovXY, if_pos hp]
    · rw [h, fold_pair X Y hovYX, if_neg (by omega)]

/-- C2 witness: the spec's example; the fully overlapping
`{"Apple Inc.",0,10,"ORG"}` and `{"Apple",0,5,"PERSON"}` resolve to the
PERSON span only, in both input orders. -/
theorem claim_C2_witness :
    remove_duplicate_entities
        [⟨"Apple Inc.", 0, 10, "ORG"⟩, ⟨"Apple", 0, 5, "PERSON"⟩]
      = [⟨"Apple", 0, 5, "PERSON"⟩] ∧
    remove_duplicate_entities
        [⟨"Apple", 0, 5, "PERSON"⟩, ⟨"Apple Inc.", 0, 10, "ORG"⟩]
      = [⟨"Apple", 0, 5, "PERSON"⟩] := by
  have h := claim_C2_priority_correctness ⟨"Apple", 0, 5, "PERSON"⟩
    ⟨"Apple Inc.", 0, 10, "ORG"⟩ (by decide) (by decide)
  exact ⟨h.2, h.1⟩

/-- C3: on an input whose spans are pairwise non-overlapping,
`remove_duplicate_entities` returns exactly the input spans (the same
records, unchanged), in some order. -/
theorem claim_C3_non_overlap_passthrough (l : List Entity)
    (h : l.Pairwise fun a b => a.endPos ≤ b.start ∨ a.start ≥ b.endPos) :
    List.Perm (remove_duplicate_entities l) l := by
  have h' : l.Pairwise fun a b => ¬ ovEnt a b :=
    h.imp fun hab => not_ovEnt_iff.mpr hab
  rw [resolve_eq_sorted_of_pairwise h']
  exact sorted_entities_perm l

/-- C3 witness: the spec's example of three non-overlapping spans is returned
unchanged up to order. -/
theorem claim_C3_witness :
    List.Perm
      (remove_duplicate_entities
        [⟨"Jan 1", 0, 4, "DATE"⟩, ⟨"$100", 10, 14, "MONEY"⟩,
         ⟨"Acme", 20, 24, "PARTY"⟩])
      [⟨"Jan 1", 0, 4, "DATE"⟩, ⟨"$100", 10, 14, "MONEY"⟩,
       ⟨"Acme", 20, 24, "PARTY"⟩] :=
  claim_C3_non_overlap_passthrough _ (by decide)

/-- C4 counterexample: `remove_duplicate_entities` is *not* idempotent on
arbitrary inputs: on this input (containing a zero-width span) a second
application permutes the output. -/
theorem claim_C4_counterexample :
    remove_duplicate_entities (remove_duplicate_entities
        [⟨"aaaaaaaaaa", 0, 4, "ORG"⟩, ⟨"bbb", 0, 0, "DATE"⟩,
         ⟨"c", 0, 2, "PERSON"⟩])
      ≠ remove_duplicate_entities
        [⟨"aaaaaaaaaa", 0, 4, "ORG"⟩, ⟨"bbb", 0, 0, "DATE"⟩,
         ⟨"c", 0, 2, "PERSON"⟩] := by decide

/-- C4 (amended): `remove_duplicate_entities` is idempotent on every input
all of whose spans are proper (`start < end`): already-resolved sets of
proper spans are fixed points. -/
theorem claim_C4_idempotent_on_proper (l : List Entity)
    (hprop : ∀ e ∈ l, e.start < e.endPos) :
    remove_duplicate_entities (remove_duplicate_entities l)
      = remove_duplicate_entities l :=
  resolve_idem_of_proper hprop

/-- C4 witness: idempotence on a concrete proper-span input. -/
theorem claim_C4_witness :
    remove_duplicate_entities (remove_duplicate_entities
        [⟨"Apple Inc.", 0, 10, "ORG"⟩, ⟨"Apple", 0, 5, "PERSON"⟩])
      = remove_duplicate_entities
        [⟨"Apple Inc.", 0, 10, "ORG"⟩, ⟨"Apple", 0, 5, "PERSON"⟩] :=
  claim_C4_idempotent_on_proper _ (by decide)

/-- C5 counterexample: the processing order is *not* obtained by breaking
start-ties by `end - start` descending: on two spans with equal starts whose
text lengths disagree with their widths, the code's order (by text length)
and the spec's order (by width) differ, and so do the resolved outputs. -/
theorem claim_C5_counterexample :
    sorted_entities [⟨"aaaaa", 0, 1, "ORG"⟩, ⟨"b", 0, 10, "ORG"⟩]
      ≠ spec_sorted_entities [⟨"aaaaa", 0, 1, "ORG"⟩, ⟨"b", 0, 10, "ORG"⟩] ∧
    remove_duplicate_entities [⟨"aaaaa", 0, 1, "ORG"⟩, ⟨"b", 0, 10, "ORG"⟩]
      ≠ ((spec_sorted_entities [⟨"aaaaa", 0, 1, "ORG"⟩, ⟨"b", 0, 10, "ORG"⟩]).foldl
          (fun st x => dedupStep st.1 st.2 x) ([], [])).1 := by decide

/-- C5 (amended): candidates are processed in an order that is a permutation
of the input sorted by `start` ascending with ties broken by the *text-field
length* descending (the key `(x["start"], -len(x["text"]))`). -/
theorem claim_C5_sort_order (l : List Entity) :
    List.Perm (sorted_entities l) l ∧
    (sorted_entities l).Pairwise fun a b =>
      a.start < b.start ∨ (a.start = b.start ∧ b.text.length ≤ a.text.length) :=
  ⟨sorted_entities_perm l, List.sorted_insertionSort entKeyLe l⟩

/-- C6 counterexample: an *errored* LLM call aborts the whole extraction:
with the call raising, `extract_legal_entities` propagates the error rather
than returning the merged result of the remaining (empty) sources. -/
theorem claim_C6_counterexample :
    extract_legal_entities [] (fun _ _ => []) (fun _ => none)
        (.error "APIError") "a"
      = .error "APIError" ∧
    extract_legal_entities [] (fun _ _ => []) (fun _ => none)
        (.error "APIError") "a"
      ≠ .ok (remove_duplicate_entities []) := by decide

/-- C6 (amended): only an *unparseable JSON* response is treated as zero
spans from the LLM source — extraction then proceeds exactly as if the LLM
had contributed no entities; an errored LLM call instead propagates out of
`extract_legal_entities` as the same error. -/
theorem claim_C6_llm_failure_handling (docEnts : List SpacyEnt)
    (regexFind : String → String → List (Nat × Nat))
    (parseEntities : String → Option (List RawEnt))
    (text content err : String)
    (hparse : parseEntities content = none) :
    extract_legal_entities docEnts regexFind parseEntities (.ok content) text
      = extract_legal_entities docEnts regexFind (fun _ => some [])
          (.ok content) text ∧
    extract_legal_entities docEnts regexFind parseEntities (.error err) text
      = .error err := by
  constructor
  · simp [extract_legal_entities, extract_legal_entities_with_llm, hparse]
  · simp [extract_legal_entities, extract_legal_entities_with_llm]

/-- C6 witness: a concrete unparseable response contributes zero spans, and a
concrete call error propagates. -/
theorem claim_C6_witness :
    extract_legal_entities [] (fun _ _ => []) (fun _ => none)
        (.ok "bad json") "x"
      = extract_legal_entities [] (fun _ _ => []) (fun _ => some [])
          (.ok "bad json") "x" ∧
    extract_legal_entities [] (fun _ _ => []) (fun _ => none)
        (.error "boom") "x"
      = .error "boom" :=
  claim_C6_llm_failure_handling [] (fun _ _ => []) (fun _ => none)
    "x" "bad json" "boom" rfl

/-- C7: on empty document text the merge engine returns the empty list, but
the chunk indexer does *not* return an empty index: the splitter yields zero
chunks, `np.array([])` is 1-dimensional, and `shape[1]` raises `IndexError`
(the code bug); this theorem evaluates the model at the failing input. -/
theorem claim_C7_empty_document (split_text : String → List String)
    (get_embedding : String → List Float)
    (hsplit : split_text "" = []) :
    remove_duplicate_entities [] = [] ∧
    create_document_embeddings split_text get_embedding ""
      = .error "IndexError: tuple index out of range" := by
  refine ⟨rfl, ?_⟩
  simp [create_document_embeddings, hsplit, npShape]

/-- C7 witness: the failing input with a concrete splitter and embedder. -/
theorem claim_C7_witness :
    remove_duplicate_entities [] = [] ∧
    create_document_embeddings (fun _ => []) (fun _ => []) ""
      = .error "IndexError: tuple index out of range" :=
  claim_C7_empty_document (fun _ => []) (fun _ => []) rfl

/-- C8: for every query and index, if the faiss search honours its contract
(`k ≤ chunk count` results, each a valid chunk id, ranked closest first),
`perform_document_search` retrieves `min 3 n` chunks and returns them joined
by a blank line in retrieval-rank order, without error. -/
theorem claim_C8_retrieval_clamping (get_embedding : String → List Float)
    (indexSearch : List Float → Nat → List Nat) (query : String)
    (de : DocumentEmbeddings) (full_text : Option String)
    (hlen : (indexSearch (get_embedding query) (min 3 de.chunks.length)).length
      = min 3 de.chunks.length)
    (hvalid : ∀ i ∈ indexSearch (get_embedding query) (min 3 de.chunks.length),
      i < de.chunks.length)
    (hne : de.chunks ≠ []) :
    ∃ ranked : List String,
      perform_document_search get_embedding indexSearch query de full_text
        = .ok (String.intercalate "\n\n" ranked) ∧
      ranked.length = min 3 de.chunks.length ∧
      ranked = (indexSearch (get_embedding query) (min 3 de.chunks.length)).map
          (fun idx => de.chunks.getD idx "") := by
  refine ⟨(indexSearch (get_embedding query) (min 3 de.chunks.length)).map
      (fun idx => de.chunks.getD idx ""), ?_, ?_, rfl⟩
  · have hmapM := mapM_get?_of_valid hvalid
    have hn0 : 0 < de.chunks.length := List.length_pos.mpr hne
    have hk0 : 0 < min 3 de.chunks.length := by omega
    have hcond : ¬ (full_text.getD "" ≠ "" ∧
        ((indexSearch (get_embedding query) (min 3 de.chunks.length)).map
          fun idx => de.chunks.getD idx "") = []) := by
      rintro ⟨-, hempty⟩
      have hlen0 : ((indexSearch (get_embedding query)
          (min 3 de.chunks.length)).map
            fun idx => de.chunks.getD idx "").length = 0 := by
        rw [hempty]; rfl
      rw [List.length_map, hlen] at hlen0
      omega
    simp only [perform_document_search, hmapM]
    rw [if_neg hcond]
  · rw [List.length_map, hlen]

/-- C8 witness: on a two-chunk index with `k = 10`-style oversupply capped by
the code's own `min`, exactly two chunks come back, ranked, joined by a blank
line, and no error is raised. -/
theorem claim_C8_witness :
    perform_document_search (fun _ => []) (fun _ _ => [1, 0]) "q"
        ⟨⟨0, []⟩, ["alpha", "beta"], []⟩ none
      = .ok "beta\n\nalpha" := by
  obtain ⟨ranked, h1, h2, h3⟩ := claim_C8_retrieval_clamping (fun _ => [])
    (fun _ _ => [1, 0]) "q" ⟨⟨0, []⟩, ["alpha", "beta"], []⟩ none
    (by decide) (by decide) (by decide)
  rw [h3] at h1
  rw [h1]
  rfl

/-- C9 counterexample: an LLM entity with empty text makes
`extract_legal_entities` emit zero-width spans (`start = end`), which survive
the merge: on document `"ab"` the output is three zero-width spans. -/
theorem claim_C9_counterexample :
    extract_legal_entities [] (fun _ _ => [])
        (fun _ => some [⟨some "", some "LEGAL_TERM"⟩]) (.ok "resp") "ab"
      = .ok [⟨"", 0, 0, "LEGAL_TERM"⟩, ⟨"", 1, 1, "LEGAL_TERM"⟩,
             ⟨"", 2, 2, "LEGAL_TERM"⟩] ∧
    (⟨"", 0, 0, "LEGAL_TERM"⟩ : Entity).start
      = (⟨"", 0, 0, "LEGAL_TERM"⟩ : Entity).endPos := by decide

/-- Every span produced by the LLM extraction path lies within the document
and carries the document text at its offsets (width = pattern length, so
`start ≤ end` only, not `start < end`). -/
theorem llm_ok_spans {parseEntities : String → Option (List RawEnt)}
    {llmResponse : Except String String} {text : String} {L : List Entity}
    (h : extract_legal_entities_with_llm parseEntities llmResponse text
      = .ok L) :
    ∀ e ∈ L, e.start ≤ e.endPos ∧ e.endPos ≤ text.length ∧
      e.text = sliceStr text e.start e.endPos := by
  rcases llmResponse with err | content
  · simp [extract_legal_entities_with_llm] at h
  · rcases hp : parseEntities content with _ | ents
    · simp [extract_legal_entities_with_llm, hp] at h
      subst h
      intro e he
      cases he
    · simp [extract_legal_entities_with_llm, hp] at h
      subst h
      intro e he
      rcases List.mem_flatMap.mp he with ⟨ent, hent, hm⟩
      rcases List.mem_map.mp hm with ⟨m, hm', rfl⟩
      obtain ⟨h1, h2, h3⟩ := finditerLiteral_spec _ text m hm'
      exact ⟨h1, h2, h3.symm⟩

/-- C9 (amended): given that the external SpaCy tagger and regex engine
report offsets into the original document (`start ≤ end ≤ len` and, for
SpaCy, `text` equal to the document slice), every span returned by
`extract_legal_entities` satisfies `0 ≤ start ≤ end ≤ len(document)` with
`text` equal to the document substring at `[start, end)`; zero-width spans
*can* occur (see the counterexample), so `start < end` cannot be
guaranteed. -/
theorem claim_C9_offsets_valid (docEnts : List SpacyEnt)
    (regexFind : String → String → List (Nat × Nat))
    (parseEntities : String → Option (List RawEnt))
    (llmResponse : Except String String) (text : String) (out : List Entity)
    (hspacy : ∀ ent ∈ docEnts,
      ent.text = sliceStr text ent.start_char ent.end_char ∧
      ent.start_char ≤ ent.end_char ∧ ent.end_char ≤ text.length)
    (hregex : ∀ pat m, m ∈ regexFind pat text →
      m.1 ≤ m.2 ∧ m.2 ≤ text.length)
    (hout : extract_legal_entities docEnts regexFind parseEntities
        llmResponse text = .ok out) :
    ∀ e ∈ out, e.start ≤ e.endPos ∧ e.endPos ≤ text.length ∧
      e.text = sliceStr text e.start e.endPos := by
  intro e he
  cases hllm : extract_legal_entities_with_llm parseEntities llmResponse text
    with
  | error err => simp [extract_legal_entities, hllm] at hout
  | ok L =>
    have hLspans := llm_ok_spans hllm
    simp only [extract_legal_entities, hllm] at hout
    rw [Except.ok.injEq] at hout
    rw [← hout] at he
    have he' := resolve_mem _ he
    rcases List.mem_append.mp he' with hl | hr
    · rcases List.mem_append.mp hl with hs | hre
      · rcases List.mem_map.mp hs with ⟨ent, hent, rfl⟩
        have hent' : ent ∈ docEnts := (List.mem_filter.mp hent).1
        obtain ⟨ht, hle, hlen⟩ := hspacy ent hent'
        exact ⟨hle, hlen, ht⟩
      · rcases List.mem_flatMap.mp hre with ⟨pat, hpat, hm⟩
        rcases List.mem_map.mp hm with ⟨m, hm', rfl⟩
        obtain ⟨h1, h2⟩ := hregex pat.2 m hm'
        exact ⟨h1, h2, rfl⟩
    · exact hLspans e hr

/-- C9 witness: a well-formed LLM entity on document `"ab"` yields a span
with valid offsets and matching text. -/
theorem claim_C9_witness :
    (⟨"ab", 0, 2, "PARTY"⟩ : Entity).start
        ≤ (⟨"ab", 0, 2, "PARTY"⟩ : Entity).endPos ∧
      (⟨"ab", 0, 2, "PARTY"⟩ : Entity).endPos ≤ "ab".length ∧
      (⟨"ab", 0, 2, "PARTY"⟩ : Entity).text = sliceStr "ab" 0 2 :=
  claim_C9_offsets_valid [] (fun _ _ => [])
    (fun _ => some [⟨some "ab", some "PARTY"⟩]) (.ok "resp") "ab"
    [⟨"ab", 0, 2, "PARTY"⟩]
    (fun ent h => absurd h (List.not_mem_nil ent))
    (fun pat m h => absurd h (List.not_mem_nil m))
    (by decide) ⟨"ab", 0, 2, "PARTY"⟩ (by decide)

/-- C10: `remove_duplicate_entities` never invents or mutates spans: every
output element is an element of the input, and the output is no longer than
the input. -/
theorem claim_C10_no_invention (l : List Entity) :
    (remove_duplicate_entities l).length ≤ l.length ∧
    ∀ e ∈ remove_duplicate_entities l, e ∈ l :=
  ⟨resolve_len l, fun _ he => resolve_mem _ he⟩

/-- C10 witness: on the Apple example the surviving span is an input span and
the output is no longer than the input. -/
theorem claim_C10_witness :
    (remove_duplicate_entities
        [⟨"Apple Inc.", 0, 10, "ORG"⟩, ⟨"Apple", 0, 5, "PERSON"⟩]).length
      ≤ ([⟨"Apple Inc.", 0, 10, "ORG"⟩,
          ⟨"Apple", 0, 5, "PERSON"⟩] : List Entity).length ∧
    (⟨"Apple", 0, 5, "PERSON"⟩ : Entity)
      ∈ [⟨"Apple Inc.", 0, 10, "ORG"⟩, ⟨"Apple", 0, 5, "PERSON"⟩] := by
  have h := claim_C10_no_invention
    [⟨"Apple Inc.", 0, 10, "ORG"⟩, ⟨"Apple", 0, 5, "PERSON"⟩]
  exact ⟨h.1, h.2 _ (by decide)⟩

end HonorAI
